import Mathlib

/-!
# Verification of the redis-automerge core (`src/redis-automerge/src/ext.rs`)

Shallow embedding of the core of the `redis-automerge` Redis module.  The
embedding follows `ext.rs` (path parser, navigator, typed field API, change
capture, foreign apply, snapshot bridge) and the `am_apply` host handler from
`lib.rs`.  The Automerge CRDT engine itself is an external collaborator of the
repository; the engine primitives the core calls (`tx.get`, `tx.put`,
`tx.put_object`, `tx.insert`, `doc.length`, `commit`, `apply_changes`,
`save`/`load`, `Change::from_bytes`) are modelled from the specification's
description of the engine (a rooted tree of maps/lists/scalars, a
content-addressed change graph, a canonical byte encoding).  Those modelled
definitions carry a `Modelled from the spec:` note in their doc comment.

Strings are represented as `List Char` (Rust `&str` iterated by `chars()`),
byte blobs as `List Nat`, and the 64-bit payload of a double by its bit
pattern (`Nat`): the core only stores and returns doubles, it never computes
with them.
-/

namespace RedisAutomerge

/-- Error type.  `ext.rs` reports every failure of its own logic as
`AutomergeError::Fail`; the remaining constructors stand for errors
originating inside the modelled engine primitives. -/
inductive AmError where
  /-- `AutomergeError::Fail` — bad path, failed navigation, etc. -/
  | fail
  /-- Engine refuses an operation invalid for the object's type
  (e.g. a keyed write on a list, an insert on a map). -/
  | invalidOp
  /-- Engine refuses a list write at a position that does not exist. -/
  | invalidIndex
  /-- `Change::from_bytes` could not parse a blob. -/
  | invalidChange
  /-- `apply_changes` rejected a batch (missing dependencies). -/
  | missingDeps
deriving DecidableEq, Repr

/-- `enum PathSegment` from `ext.rs`: a map key or a list index. -/
inductive PathSegment where
  | key (k : List Char)
  | index (i : Nat)
deriving DecidableEq, Repr

/-- Scalar leaf values.  The four typed APIs of `ext.rs` store
`ScalarValue::Str`, `ScalarValue::Int`, `ScalarValue::F64` and
`ScalarValue::Boolean`; a double is represented by its 64-bit pattern. -/
inductive AmScalar where
  | str (s : List Char)
  | int (i : Int)
  | f64 (bits : Nat)
  | boolean (b : Bool)
deriving DecidableEq, Repr

/-- Modelled from the spec: the engine's document tree — interior nodes are
maps (string-keyed) or lists (ordered), leaves are scalars (§3 Data model). -/
inductive AmNode where
  | scalar (s : AmScalar)
  | map (es : List (List Char × AmNode))
  | list (xs : List AmNode)
deriving Repr

/-- Association-list lookup used by the map nodes. -/
def lookupEntry : List (List Char × AmNode) → List Char → Option AmNode
  | [], _ => none
  | (k, v) :: rest, key => if k = key then some v else lookupEntry rest key

/-- Association-list update: replace the value at a key, or append a new
entry when the key is absent. -/
def setEntry : List (List Char × AmNode) → List Char → AmNode → List (List Char × AmNode)
  | [], key, v => [(key, v)]
  | (k, w) :: rest, key, v =>
    if k = key then (k, v) :: rest else (k, w) :: setEntry rest key v

/-- Modelled from the spec: the engine's `get(obj, prop)` — a string prop
reads a map entry, an integer prop reads a list element, and a prop of the
wrong kind for the object finds nothing. -/
def childAt : AmNode → PathSegment → Option AmNode
  | .map es, .key k => lookupEntry es k
  | .list xs, .index i => xs[i]?
  | _, _ => none

/-- Resolve an object id.  An Automerge `ObjId` is modelled by the segment
path from the root to the object; `resolveObj` follows it. -/
def resolveObj : AmNode → List PathSegment → Option AmNode
  | node, [] => some node
  | node, seg :: rest =>
    match childAt node seg with
    | some c => resolveObj c rest
    | none => none

/-! ## Path parser (`parse_path`, ext.rs lines 58–112) -/

/-- Decimal digit. -/
def digitVal (c : Char) : Option Nat :=
  if '0' ≤ c ∧ c ≤ '9' then some (c.toNat - '0'.toNat) else none

/-- Digit-list accumulator for `parseUsize`. -/
def parseDigits : List Char → Nat → Option Nat
  | [], acc => some acc
  | c :: rest, acc =>
    match digitVal c with
    | some d => parseDigits rest (acc * 10 + d)
    | none => none

/-- Rust's `str::parse::<usize>`: optional leading `+`, then one or more
decimal digits, value below `2^64`. -/
def parseUsize (s : List Char) : Option Nat :=
  let body := match s with
    | '+' :: rest => rest
    | _ => s
  match body with
  | [] => none
  | _ =>
    match parseDigits body 0 with
    | some n => if n < 2 ^ 64 then some n else none
    | none => none

/-- The character loop of `parse_path` (ext.rs 69–101), with the loop state
(`segments`, `current`, `in_bracket`, `bracket_content`) passed explicitly,
followed by the post-loop checks (ext.rs 103–111). -/
def parseLoop (segments : List PathSegment) (current : List Char)
    (inBracket : Bool) (bracketContent : List Char) :
    List Char → Except AmError (List PathSegment)
  | [] =>
    if inBracket then .error .fail          -- unclosed bracket
    else if current.isEmpty then .ok segments
    else .ok (segments ++ [.key current])
  | c :: rest =>
    if c = '.' ∧ ¬inBracket then
      -- terminate the current key; an empty key is silently skipped
      parseLoop (if current.isEmpty then segments else segments ++ [.key current])
        [] false bracketContent rest
    else if c = '[' ∧ ¬inBracket then
      parseLoop (if current.isEmpty then segments else segments ++ [.key current])
        [] true [] rest
    else if c = ']' ∧ inBracket then
      match parseUsize bracketContent with
      | some i => parseLoop (segments ++ [.index i]) current false [] rest
      | none => .error .fail
    else if inBracket then
      parseLoop segments current true (bracketContent ++ [c]) rest
    else
      parseLoop segments (current ++ [c]) false bracketContent rest

/-- `path.strip_prefix("$.")`, keeping the original on no match. -/
def stripDollarDot : List Char → List Char
  | c :: d :: rest => if c = '$' ∧ d = '.' then rest else c :: d :: rest
  | other => other

/-- `parse_path` (ext.rs 58–112): strip an optional `$.`, empty input parses
to the empty path, otherwise run the character loop. -/
def parse_path (path : List Char) : Except AmError (List PathSegment) :=
  let trimmed := stripDollarDot path
  if trimmed.isEmpty then .ok []
  else parseLoop [] [] false [] trimmed

/-! ## Navigator (ext.rs 114–191)

The Rust code walks an `ObjId` through a mutable transaction.  Here an
`ObjId` is the path from the root to the object, and the walk is expressed
as structural recursion on the segment list that rebuilds the updated
subtree on the way out — the state-passing reading of the same loop. -/

/-- `navigate_or_create_path` (ext.rs 117–161): create-maps walk.  For each
`Key` segment it matches `tx.get(current, key)`: an object child (map or
list) is descended into, a scalar child is an error, an absent child is
created as an empty map by `tx.put_object(current, key, Map)` — which the
engine refuses when `current` is itself a list or a scalar (Modelled from
the spec: the data model gives lists no string-keyed children, so the
engine's keyed `put_object` only succeeds on a map).  For each `Index`
segment it matches `tx.get(current, idx)`: an object element is descended
into, a scalar element or a missing position is an error.  Returns the
updated document; the target object's id is the walked path itself. -/
def navigate_or_create_path : AmNode → List PathSegment → Except AmError AmNode
  | node, [] => .ok node
  | .map es, .key k :: rest =>
    match lookupEntry es k with
    | some (.scalar _) => .error .fail
    | some child =>
      (navigate_or_create_path child rest).map fun child' => .map (setEntry es k child')
    | none =>
      (navigate_or_create_path (.map []) rest).map fun child' => .map (setEntry es k child')
  | .list _, .key _ :: _ => .error .invalidOp
  | .scalar _, .key _ :: _ => .error .invalidOp
  | .list xs, .index i :: rest =>
    match xs[i]? with
    | some (.scalar _) => .error .fail
    | some child =>
      (navigate_or_create_path child rest).map fun child' => .list (xs.set i child')
    | none => .error .fail
  | .map _, .index _ :: _ => .error .fail
  | .scalar _, .index _ :: _ => .error .fail

/-- `navigate_path_read` (ext.rs 165–191): read-only walk.  Descends through
object children; a scalar child, a missing key or an out-of-range index is a
miss (`None`).  Returns the node the final segment reaches (the Rust code
returns its `ObjId`; the node is what every caller reads through it). -/
def navigate_path_read : AmNode → List PathSegment → Option AmNode
  | node, [] => some node
  | node, seg :: rest =>
    match childAt node seg with
    | some (.scalar _) => none
    | some child => navigate_path_read child rest
    | none => none

/-- `get_value_from_parent` (ext.rs 194–203): read one segment under a
parent object — `doc.get(parent, key)` or `doc.get(parent, idx)`. -/
def get_value_from_parent (parent : AmNode) (segment : PathSegment) : Option AmNode :=
  childAt parent segment

/-- Apply an update function to the object at an id (segment path).  This is
the state-passing reading of mutating through an Automerge `ObjId`: the
path is walked down and the updated subtree written back.  Walking uses the
same child relation as `childAt`. -/
def modifyAt : AmNode → List PathSegment → (AmNode → Except AmError AmNode) →
    Except AmError AmNode
  | node, [], f => f node
  | .map es, .key k :: rest, f =>
    match lookupEntry es k with
    | some child => (modifyAt child rest f).map fun child' => .map (setEntry es k child')
    | none => .error .fail
  | .list xs, .index i :: rest, f =>
    match xs[i]? with
    | some child => (modifyAt child rest f).map fun child' => .list (xs.set i child')
    | none => .error .fail
  | _, _ :: _, _ => .error .fail

/-- Modelled from the spec: the engine's `tx.put(obj, prop, value)` on the
node the prop addresses — overwrite a map entry, overwrite an existing list
element (a position that does not exist is refused; `put` never extends a
list), and refuse a prop of the wrong kind for the object. -/
def putChild (node : AmNode) (segment : PathSegment) (v : AmScalar) :
    Except AmError AmNode :=
  match node, segment with
  | .map es, .key k => .ok (.map (setEntry es k (.scalar v)))
  | .list xs, .index i =>
    if i < xs.length then .ok (.list (xs.set i (.scalar v))) else .error .invalidIndex
  | .list _, .key _ => .error .invalidOp
  | .map _, .index _ => .error .invalidOp
  | .scalar _, _ => .error .invalidOp

/-- `put_value_to_parent` (ext.rs 206–222): `tx.put(parent, key, value)` or
`tx.put(parent, idx, value)` at the parent object id. -/
def put_value_to_parent (root : AmNode) (parent : List PathSegment)
    (segment : PathSegment) (v : AmScalar) : Except AmError AmNode :=
  modifyAt root parent fun node => putChild node segment v

/-- Object kinds the core creates (`automerge::ObjType::Map` / `List`). -/
inductive AmObjType where
  | map
  | list
deriving DecidableEq, Repr

/-- The empty object of a kind. -/
def emptyObj : AmObjType → AmNode
  | .map => .map []
  | .list => .list []

/-- Modelled from the spec: the engine's keyed `tx.put_object(parent, key,
objtype)` — insert a fresh empty object under a key of a map; refused on a
list or scalar parent (lists have no string-keyed children). -/
def put_object_at (root : AmNode) (parent : List PathSegment) (k : List Char)
    (t : AmObjType) : Except AmError AmNode :=
  modifyAt root parent fun node =>
    match node with
    | .map es => .ok (.map (setEntry es k (emptyObj t)))
    | _ => .error .invalidOp

/-- Insert into a list, shifting later elements (`Vec::insert` semantics). -/
def insertElem : List AmNode → Nat → AmNode → List AmNode
  | xs, 0, v => v :: xs
  | [], _ + 1, v => [v]
  | x :: xs, i + 1, v => x :: insertElem xs i v

/-- Modelled from the spec: the engine's `tx.insert(obj, index, value)` —
only valid on a list, at a position `≤` its length; an insert on a map (in
particular the root) is refused (§4.C: appends on the map root fail). -/
def insertChild (node : AmNode) (i : Nat) (v : AmScalar) : Except AmError AmNode :=
  match node with
  | .list xs => if i ≤ xs.length then .ok (.list (insertElem xs i (.scalar v))) else .error .invalidIndex
  | _ => .error .invalidOp

/-- `tx.insert(list_obj, len, value)` at an object id. -/
def insert_at (root : AmNode) (obj : List PathSegment) (i : Nat) (v : AmScalar) :
    Except AmError AmNode :=
  modifyAt root obj fun node => insertChild node i v

/-- Modelled from the spec: `doc.length(obj)` — elements of a list, keys of
a map (§4.C: on a map the engine's length is returned as-is), 0 otherwise. -/
def nodeLength : AmNode → Nat
  | .list xs => xs.length
  | .map es => es.length
  | .scalar _ => 0

/-! ## Changes and the engine's change graph

Modelled from the spec: a CRDT change is an opaque, content-addressed byte
record with a hash and dependency hashes (glossary, §4.F).  The model keeps
the decoded form next to its raw bytes, as `automerge::Change` does. -/

/-- Raw byte blob. -/
abbrev Blob := List Nat

/-- Modelled from the spec: a parsed change — its hash, the hashes it
depends on, and the raw bytes it was parsed from (`Change::raw_bytes`). -/
structure Change where
  hash : Nat
  deps : List Nat
  raw : Blob
deriving DecidableEq, Repr

/-- Modelled from the spec: `Change::from_bytes`.  The model's wire format
is `1 :: hash :: depCount :: deps`; anything else fails to parse. -/
def changeFromBytes (b : Blob) : Option Change :=
  match b with
  | 1 :: h :: n :: ds => if ds.length = n then some ⟨h, ds, b⟩ else none
  | _ => none

/-- The document handle: the value tree plus the engine's applied-change
log (the content-addressed change graph the engine keeps). -/
structure AmDoc where
  root : AmNode
  applied : List Change

/-- Modelled from the spec: `apply_changes` — the batch is checked and
recorded atomically; a change whose dependencies are not all present in the
change graph (or earlier in the batch) makes the engine reject the whole
batch.  The tree effect of foreign changes is outside this model (no claim
observes the tree after a successful foreign apply). -/
def engineApplyChanges (d : AmDoc) : List Change → Except AmError AmDoc
  | [] => .ok d
  | ch :: rest =>
    if ch.deps.all fun dep => (d.applied.map Change.hash).contains dep then
      engineApplyChanges ⟨d.root, d.applied ++ [ch]⟩ rest
    else .error .missingDeps

/-- Modelled from the spec: the change produced by committing a local
transaction — a fresh content hash (modelled by its position in the log)
and its raw bytes in the wire format above. -/
def mkLocalChange (d : AmDoc) : Change :=
  let h := d.applied.length
  ⟨h, [], [1, h, 0]⟩

/-! ## The client (`RedisAutomergeClient`, ext.rs 276–783)

Mutating methods take `&mut self` in Rust; they are modelled as functions
returning `Option AmError × RedisAutomergeClient` — the error (if any) and
the client as it stands after the call.  On every error path of the typed
API the open transaction is dropped without commit, so the client comes
back unchanged; `apply` is the one method that mutates (the `aof` buffer)
before its fallible engine call. -/

/-- `struct RedisAutomergeClient { doc, aof }` (ext.rs 276–279). -/
structure RedisAutomergeClient where
  doc : AmDoc
  aof : List Blob

/-- `RedisAutomergeClient::new()` (ext.rs 291–296): empty document (the
root is an empty map), empty change-buffer. -/
def RedisAutomergeClient.new : RedisAutomergeClient :=
  ⟨⟨.map [], []⟩, []⟩

/-- The commit-and-capture tail shared by every successful local mutation
(e.g. ext.rs 336–342): `tx.commit()` yields the new change's hash, the
change is looked up by hash and its raw bytes pushed onto `aof`.  Every
successful mutation of the typed API has issued at least one op, so the
commit always produces a change here. -/
def commit_change (c : RedisAutomergeClient) (root' : AmNode) :
    Option AmError × RedisAutomergeClient :=
  let ch := mkLocalChange c.doc
  (none, ⟨⟨root', c.doc.applied ++ [ch]⟩, c.aof ++ [ch.raw]⟩)

/-- The shared body of `put_text` / `put_int` / `put_double` / `put_bool`
(ext.rs 324–343, 396–415, 447–466, 498–517 — the four are verbatim copies
differing only in the scalar value): parse the path, reject the empty path,
split off the final segment, create-maps-navigate to the parent, put the
scalar at the final segment, commit and capture. -/
def put_scalar (c : RedisAutomergeClient) (path : List Char) (v : AmScalar) :
    Option AmError × RedisAutomergeClient :=
  match parse_path path with
  | .error e => (some e, c)
  | .ok segments =>
    if h : segments = [] then (some .fail, c)
    else
      let parent_path := segments.dropLast
      let field_name := segments.getLast h
      match navigate_or_create_path c.doc.root parent_path with
      | .error e => (some e, c)
      | .ok root1 =>
        match put_value_to_parent root1 parent_path field_name v with
        | .error e => (some e, c)
        | .ok root2 => commit_change c root2

/-- `put_text` (ext.rs 324–343). -/
def put_text (c : RedisAutomergeClient) (path : List Char) (value : List Char) :
    Option AmError × RedisAutomergeClient :=
  put_scalar c path (.str value)

/-- `put_int` (ext.rs 396–415). -/
def put_int (c : RedisAutomergeClient) (path : List Char) (value : Int) :
    Option AmError × RedisAutomergeClient :=
  put_scalar c path (.int value)

/-- `put_double` (ext.rs 447–466); the double is carried as its bit
pattern. -/
def put_double (c : RedisAutomergeClient) (path : List Char) (bits : Nat) :
    Option AmError × RedisAutomergeClient :=
  put_scalar c path (.f64 bits)

/-- `put_bool` (ext.rs 498–517). -/
def put_bool (c : RedisAutomergeClient) (path : List Char) (value : Bool) :
    Option AmError × RedisAutomergeClient :=
  put_scalar c path (.boolean value)

/-- The shared body of `get_text` / `get_int` / `get_double` / `get_bool`
(ext.rs 367–392, 418–443, 469–494, 520–545 — verbatim copies differing only
in the scalar pattern matched at the end): parse the path, empty path reads
as `None`, read-navigate to the parent (the root itself when the parent
path is empty), fetch the final segment.  Returns the child found, if any. -/
def get_leaf (c : RedisAutomergeClient) (path : List Char) :
    Except AmError (Option AmNode) :=
  match parse_path path with
  | .error e => .error e
  | .ok segments =>
    if h : segments = [] then .ok none
    else
      let parent_path := segments.dropLast
      let field_name := segments.getLast h
      let parent? :=
        if parent_path = [] then some c.doc.root
        else navigate_path_read c.doc.root parent_path
      match parent? with
      | none => .ok none
      | some parent => .ok (get_value_from_parent parent field_name)

/-- `get_text` (ext.rs 367–392): the value only if it is a `Str` scalar,
`None` on a miss or any other kind of value. -/
def get_text (c : RedisAutomergeClient) (path : List Char) :
    Except AmError (Option (List Char)) :=
  match get_leaf c path with
  | .error e => .error e
  | .ok (some (.scalar (.str t))) => .ok (some t)
  | .ok _ => .ok none

/-- `get_int` (ext.rs 418–443). -/
def get_int (c : RedisAutomergeClient) (path : List Char) :
    Except AmError (Option Int) :=
  match get_leaf c path with
  | .error e => .error e
  | .ok (some (.scalar (.int i))) => .ok (some i)
  | .ok _ => .ok none

/-- `get_double` (ext.rs 469–494). -/
def get_double (c : RedisAutomergeClient) (path : List Char) :
    Except AmError (Option Nat) :=
  match get_leaf c path with
  | .error e => .error e
  | .ok (some (.scalar (.f64 bits))) => .ok (some bits)
  | .ok _ => .ok none

/-- `get_bool` (ext.rs 520–545). -/
def get_bool (c : RedisAutomergeClient) (path : List Char) :
    Except AmError (Option Bool) :=
  match get_leaf c path with
  | .error e => .error e
  | .ok (some (.scalar (.boolean b))) => .ok (some b)
  | .ok _ => .ok none

/-- `create_list` (ext.rs 570–597): like a put, but the final segment must
be a key, and the engine inserts an empty list object there. -/
def create_list (c : RedisAutomergeClient) (path : List Char) :
    Option AmError × RedisAutomergeClient :=
  match parse_path path with
  | .error e => (some e, c)
  | .ok segments =>
    if h : segments = [] then (some .fail, c)
    else
      let parent_path := segments.dropLast
      let field_name := segments.getLast h
      match navigate_or_create_path c.doc.root parent_path with
      | .error e => (some e, c)
      | .ok root1 =>
        match field_name with
        | .key k =>
          match put_object_at root1 parent_path k .list with
          | .error e => (some e, c)
          | .ok root2 => commit_change c root2
        | .index _ => (some .fail, c)

/-- The shared body of `append_text` / `append_int` / `append_double` /
`append_bool` (ext.rs 625–645, 648–668, 671–691, 694–714 — verbatim copies
differing only in the scalar value): parse the path, read-navigate to the
list (the root when the path is empty; a failed navigation is an error, not
a miss), then `tx.insert(list_obj, doc.length(list_obj), value)`, commit
and capture. -/
def append_scalar (c : RedisAutomergeClient) (path : List Char) (v : AmScalar) :
    Option AmError × RedisAutomergeClient :=
  match parse_path path with
  | .error e => (some e, c)
  | .ok segments =>
    let found :=
      if segments = [] then some c.doc.root
      else navigate_path_read c.doc.root segments
    match found with
    | none => (some .fail, c)
    | some listNode =>
      match insert_at c.doc.root segments (nodeLength listNode) v with
      | .error e => (some e, c)
      | .ok root' => commit_change c root'

/-- `append_text` (ext.rs 625–645). -/
def append_text (c : RedisAutomergeClient) (path : List Char) (value : List Char) :
    Option AmError × RedisAutomergeClient :=
  append_scalar c path (.str value)

/-- `append_int` (ext.rs 648–668). -/
def append_int (c : RedisAutomergeClient) (path : List Char) (value : Int) :
    Option AmError × RedisAutomergeClient :=
  append_scalar c path (.int value)

/-- `append_double` (ext.rs 671–691). -/
def append_double (c : RedisAutomergeClient) (path : List Char) (bits : Nat) :
    Option AmError × RedisAutomergeClient :=
  append_scalar c path (.f64 bits)

/-- `append_bool` (ext.rs 694–714). -/
def append_bool (c : RedisAutomergeClient) (path : List Char) (value : Bool) :
    Option AmError × RedisAutomergeClient :=
  append_scalar c path (.boolean value)

/-- `list_len` (ext.rs 737–750): read-navigate (root on the empty path) and
return the engine's length; a failed navigation is `None`. -/
def list_len (c : RedisAutomergeClient) (path : List Char) :
    Except AmError (Option Nat) :=
  match parse_path path with
  | .error e => .error e
  | .ok segments =>
    let found :=
      if segments = [] then some c.doc.root
      else navigate_path_read c.doc.root segments
    match found with
    | none => .ok none
    | some obj => .ok (some (nodeLength obj))

/-- `RedisAutomergeExt::apply` (ext.rs 772–778): push the raw bytes of every
change onto `aof` first, then hand the batch to the engine.  Note the Rust
code does not roll `aof` back when `apply_changes` fails. -/
def RedisAutomergeClient.apply (c : RedisAutomergeClient) (changes : List Change) :
    Option AmError × RedisAutomergeClient :=
  let c1 : RedisAutomergeClient := ⟨c.doc, c.aof ++ changes.map Change.raw⟩
  match engineApplyChanges c.doc changes with
  | .error e => (some e, c1)
  | .ok d' => (none, ⟨d', c1.aof⟩)

/-- `commands` (ext.rs 780–783): `std::mem::take(&mut self.aof)` — return
the buffer and reset it to empty. -/
def commands (c : RedisAutomergeClient) : List Blob × RedisAutomergeClient :=
  (c.aof, ⟨c.doc, []⟩)

/-- The parse loop of `am_apply` (lib.rs 656–662): parse every blob with
`Change::from_bytes`, failing the whole batch on the first bad blob. -/
def decode_change_batch : List Blob → Except AmError (List Change)
  | [] => .ok []
  | b :: rest =>
    match changeFromBytes b with
    | none => .error .invalidChange
    | some ch => (decode_change_batch rest).map fun chs => ch :: chs

/-- `am_apply` (lib.rs 647–670), the part acting on the client: parse all
blobs first, then call `RedisAutomergeClient::apply` with the parsed
batch.  A parse failure returns before the client is touched. -/
def am_apply (c : RedisAutomergeClient) (blobs : List Blob) :
    Option AmError × RedisAutomergeClient :=
  match decode_change_batch blobs with
  | .error e => (some e, c)
  | .ok chs => c.apply chs

/-- The four scalar types of the typed field API. -/
inductive ScalarTag where
  | text
  | int
  | double
  | bool
deriving DecidableEq, Repr

/-- The type of a stored scalar. -/
def tagOf : AmScalar → ScalarTag
  | .str _ => .text
  | .int _ => .int
  | .f64 _ => .double
  | .boolean _ => .bool

/-- Dispatch to `get_T` by type tag, re-wrapping the typed result as a
scalar so the four getters have a common result type. -/
def get_tagged (t : ScalarTag) (c : RedisAutomergeClient) (p : List Char) :
    Except AmError (Option AmScalar) :=
  match t with
  | .text => (get_text c p).map (Option.map .str)
  | .int => (get_int c p).map (Option.map .int)
  | .double => (get_double c p).map (Option.map .f64)
  | .bool => (get_bool c p).map (Option.map .boolean)

/-! ## Operation traces over a client

Used to state the change-buffer invariant: the mutating entry points of the
client (`put_T` via their shared body, `create_list`, `append_T` via their
shared body, `apply`) plus the host's drain (`commands`). -/

/-- One client operation. -/
inductive ClientOp where
  | putOp (p : List Char) (v : AmScalar)
  | createListOp (p : List Char)
  | appendOp (p : List Char) (v : AmScalar)
  | applyOp (chs : List Change)
  | drainOp
deriving Repr

/-- Run one operation, keeping the resulting client. -/
def runOp (c : RedisAutomergeClient) : ClientOp → RedisAutomergeClient
  | .putOp p v => (put_scalar c p v).2
  | .createListOp p => (create_list c p).2
  | .appendOp p v => (append_scalar c p v).2
  | .applyOp chs => (RedisAutomergeClient.apply c chs).2
  | .drainOp => (commands c).2

/-- Run a sequence of operations. -/
def runOps (c : RedisAutomergeClient) : List ClientOp → RedisAutomergeClient
  | [] => c
  | op :: ops => runOps (runOp c op) ops

/-- The blobs an operation appends to the change-buffer: the raw bytes of
the one change a successful local mutation commits, every raw blob handed
to `apply` (the Rust code pushes them before the engine accepts or rejects
the batch), and nothing for a failed local mutation or a drain. -/
def producedBlobs (c : RedisAutomergeClient) : ClientOp → List Blob
  | .putOp p v =>
    if (put_scalar c p v).1 = none then [(mkLocalChange c.doc).raw] else []
  | .createListOp p =>
    if (create_list c p).1 = none then [(mkLocalChange c.doc).raw] else []
  | .appendOp p v =>
    if (append_scalar c p v).1 = none then [(mkLocalChange c.doc).raw] else []
  | .applyOp chs => chs.map Change.raw
  | .drainOp => []

/-- What the change-buffer should hold after a trace, given that it holds
`base` now: blobs accumulate in production order and a drain resets the
buffer to empty. -/
def bufferSpec (base : List Blob) (c : RedisAutomergeClient) :
    List ClientOp → List Blob
  | [] => base
  | op :: ops =>
    match op with
    | .drainOp => bufferSpec [] (runOp c .drainOp) ops
    | _ => bufferSpec (base ++ producedBlobs c op) (runOp c op) ops

/-! ## Reference shapes for the parser theorems -/

/-- Split `cur ++ chars` at the dots, dropping empty keys — the effect of
the parser's character loop on bracket-free input. -/
def splitKeys (cur : List Char) : List Char → List PathSegment
  | [] => if cur.isEmpty then [] else [.key cur]
  | c :: rest =>
    if c = '.' then
      (if cur.isEmpty then [] else [.key cur]) ++ splitKeys [] rest
    else splitKeys (cur ++ [c]) rest

/-- Join a list of words with `'.'` separators. -/
def joinDots : List (List Char) → List Char
  | [] => []
  | [w] => w
  | w :: ws => w ++ '.' :: joinDots ws

/-! ## Snapshot bridge (`save`/`load`, ext.rs 760–770)

Modelled from the spec: `save()` returns "the engine's canonical byte
encoding of the full document state" and `load(bytes)` reconstructs a
document from it (§4.G).  The model makes the encoding concrete: a
length-prefixed flattening of the value tree and the applied-change log.
`load` rejects bytes that do not decode exactly. -/

/-- Length-prefixed string encoding. -/
def encodeStr (s : List Char) : List Nat :=
  s.length :: s.map Char.toNat

/-- Inverse of `encodeStr`, returning the remaining bytes. -/
def decodeStr : List Nat → Option (List Char × List Nat)
  | n :: rest =>
    if n ≤ rest.length then some ((rest.take n).map Char.ofNat, rest.drop n) else none
  | [] => none

/-- Tagged scalar encoding. -/
def encodeScalar : AmScalar → List Nat
  | .str s => 0 :: encodeStr s
  | .int i => [1, if i < 0 then 1 else 0, i.natAbs]
  | .f64 bits => [2, bits]
  | .boolean b => [3, if b then 1 else 0]

/-- Inverse of `encodeScalar`. -/
def decodeScalar : List Nat → Option (AmScalar × List Nat)
  | 0 :: rest => (decodeStr rest).map fun p => (.str p.1, p.2)
  | 1 :: sg :: m :: rest =>
    some (.int (if sg = 1 then -(m : Int) else (m : Int)), rest)
  | 2 :: bits :: rest => some (.f64 bits, rest)
  | 3 :: b :: rest => some (.boolean (b = 1), rest)
  | _ => none

mutual

/-- Tagged, length-prefixed tree encoding. -/
def encodeNode : AmNode → List Nat
  | .scalar s => 0 :: encodeScalar s
  | .map es => 1 :: es.length :: encodeEntries es
  | .list xs => 2 :: xs.length :: encodeElems xs

/-- Encoding of map entries, in order. -/
def encodeEntries : List (List Char × AmNode) → List Nat
  | [] => []
  | (k, v) :: rest => encodeStr k ++ (encodeNode v ++ encodeEntries rest)

/-- Encoding of list elements, in order. -/
def encodeElems : List AmNode → List Nat
  | [] => []
  | v :: rest => encodeNode v ++ encodeElems rest

end

mutual

/-- Nesting depth of a node (fuel needed to decode it). -/
def depthNode : AmNode → Nat
  | .scalar _ => 1
  | .map es => 1 + depthEntries es
  | .list xs => 1 + depthElems xs

/-- Maximal depth of the entries' values. -/
def depthEntries : List (List Char × AmNode) → Nat
  | [] => 0
  | (_, v) :: rest => max (depthNode v) (depthEntries rest)

/-- Maximal depth of the elements. -/
def depthElems : List AmNode → Nat
  | [] => 0
  | v :: rest => max (depthNode v) (depthElems rest)

end

mutual

/-- Fuelled inverse of `encodeNode`; the fuel bounds the nesting depth. -/
def decodeNodeF : Nat → List Nat → Option (AmNode × List Nat)
  | 0, _ => none
  | fuel + 1, bs =>
    match bs with
    | 0 :: rest => (decodeScalar rest).map fun p => (.scalar p.1, p.2)
    | 1 :: n :: rest => (decodeEntriesF fuel n rest).map fun p => (.map p.1, p.2)
    | 2 :: n :: rest => (decodeElemsF fuel n rest).map fun p => (.list p.1, p.2)
    | _ => none
  termination_by fuel _bs => (fuel, 0)

/-- Decode exactly `n` map entries. -/
def decodeEntriesF : Nat → Nat → List Nat →
    Option (List (List Char × AmNode) × List Nat)
  | _, 0, bs => some ([], bs)
  | fuel, n + 1, bs =>
    match decodeStr bs with
    | none => none
    | some (k, r1) =>
      match decodeNodeF fuel r1 with
      | none => none
      | some (v, r2) =>
        (decodeEntriesF fuel n r2).map fun p => ((k, v) :: p.1, p.2)
  termination_by fuel n _bs => (fuel, n + 1)

/-- Decode exactly `n` list elements. -/
def decodeElemsF : Nat → Nat → List Nat → Option (List AmNode × List Nat)
  | _, 0, bs => some ([], bs)
  | fuel, n + 1, bs =>
    match decodeNodeF fuel bs with
    | none => none
    | some (v, r1) => (decodeElemsF fuel n r1).map fun p => (v :: p.1, p.2)
  termination_by fuel n _bs => (fuel, n + 1)

end

/-- Encoding of one change record: hash, dependencies, raw bytes. -/
def encodeChange (ch : Change) : List Nat :=
  ch.hash :: ch.deps.length :: (ch.deps ++ ch.raw.length :: ch.raw)

/-- Inverse of `encodeChange`. -/
def decodeChangeRec : List Nat → Option (Change × List Nat)
  | h :: n :: rest =>
    if n ≤ rest.length then
      match rest.drop n with
      | m :: rest2 =>
        if m ≤ rest2.length then
          some (⟨h, rest.take n, rest2.take m⟩, rest2.drop m)
        else none
      | [] => none
    else none
  | _ => none

/-- Encoding of the applied-change log, in order. -/
def encodeChangeList : List Change → List Nat
  | [] => []
  | ch :: rest => encodeChange ch ++ encodeChangeList rest

/-- Decode exactly `n` change records. -/
def decodeChangeList : Nat → List Nat → Option (List Change × List Nat)
  | 0, bs => some ([], bs)
  | n + 1, bs =>
    match decodeChangeRec bs with
    | none => none
    | some (ch, r) => (decodeChangeList n r).map fun p => (ch :: p.1, p.2)

/-- The canonical encoding of the full document state: the value tree
followed by the applied-change log. -/
def encodeDoc (d : AmDoc) : List Nat :=
  encodeNode d.root ++ d.applied.length :: encodeChangeList d.applied

/-- Inverse of `encodeDoc`; bytes with trailing garbage are rejected. -/
def decodeDoc (bs : List Nat) : Option AmDoc :=
  match decodeNodeF (bs.length + 1) bs with
  | none => none
  | some (root, rest) =>
    match rest with
    | n :: rest2 =>
      match decodeChangeList n rest2 with
      | some (chs, []) => some ⟨root, chs⟩
      | _ => none
    | [] => none

/-- `RedisAutomergeExt::save` (ext.rs 768–770): `self.doc.save()`, the
engine's canonical encoding of the document. -/
def save (c : RedisAutomergeClient) : List Nat :=
  encodeDoc c.doc

/-- `RedisAutomergeExt::load` (ext.rs 760–766): parse the bytes into a
document (`Automerge::load`), failing on undecodable bytes, and construct
a client around it with an **empty** change-buffer (`aof: Vec::new()`). -/
def load (bytes : List Nat) : Except AmError RedisAutomergeClient :=
  match decodeDoc bytes with
  | some d => .ok ⟨d, []⟩
  | none => .error .invalidChange

/-! ## Helper lemmas -/

/-- A node is an object (map or list), not a scalar. -/
def AmNode.isObj : AmNode → Bool
  | .scalar _ => false
  | .map _ => true
  | .list _ => true

theorem lookup_setEntry_self (es : List (List Char × AmNode)) (k : List Char)
    (v : AmNode) : lookupEntry (setEntry es k v) k = some v := by
  induction es with
  | nil => simp [setEntry, lookupEntry]
  | cons e rest ih =>
    obtain ⟨k', w⟩ := e
    by_cases hk : k' = k <;> simp [setEntry, lookupEntry, hk, ih]

theorem lookup_setEntry_ne (es : List (List Char × AmNode)) {k k' : List Char}
    (v : AmNode) (hne : k' ≠ k) :
    lookupEntry (setEntry es k v) k' = lookupEntry es k' := by
  have hne' : k ≠ k' := fun h => hne h.symm
  induction es with
  | nil => simp [setEntry, lookupEntry, hne']
  | cons e rest ih =>
    obtain ⟨k0, w⟩ := e
    by_cases hk : k0 = k
    · subst hk
      simp [setEntry, lookupEntry, hne']
    · simp [setEntry, lookupEntry, hk, ih]

theorem modifyAt_ok {root root' : AmNode} {ps : List PathSegment}
    {f : AmNode → Except AmError AmNode} (h : modifyAt root ps f = .ok root') :
    ∃ t t', resolveObj root ps = some t ∧ f t = .ok t' ∧ resolveObj root' ps = some t' := by
  induction ps generalizing root root' with
  | nil =>
    simp only [modifyAt] at h
    exact ⟨root, root', rfl, h, rfl⟩
  | cons seg rest ih =>
    cases root with
    | scalar s => simp [modifyAt] at h
    | map es =>
      cases seg with
      | key k =>
        simp only [modifyAt] at h
        cases hc : lookupEntry es k with
        | none => simp [hc] at h
        | some child =>
          simp only [hc] at h
          cases hm : modifyAt child rest f with
          | error e => simp [hm, Except.map] at h
          | ok child' =>
            simp only [hm, Except.map] at h
            cases h
            obtain ⟨t, t', h1, h2, h3⟩ := ih hm
            refine ⟨t, t', ?_, h2, ?_⟩
            · simp [resolveObj, childAt, hc, h1]
            · simp [resolveObj, childAt, lookup_setEntry_self, h3]
      | index i => simp [modifyAt] at h
    | list xs =>
      cases seg with
      | key k => simp [modifyAt] at h
      | index i =>
        simp only [modifyAt] at h
        cases hc : xs[i]? with
        | none => simp [hc] at h
        | some child =>
          simp only [hc] at h
          cases hm : modifyAt child rest f with
          | error e => simp [hm, Except.map] at h
          | ok child' =>
            simp only [hm, Except.map] at h
            cases h
            obtain ⟨t, t', h1, h2, h3⟩ := ih hm
            have hi : i < xs.length := by
              by_contra hge
              rw [List.getElem?_eq_none (Nat.le_of_not_lt hge)] at hc
              exact Option.noConfusion hc
            refine ⟨t, t', ?_, h2, ?_⟩
            · simp [resolveObj, childAt, hc, h1]
            · simp [resolveObj, childAt, List.getElem?_set_self', hi, h3]

theorem modifyAt_error {root : AmNode} {ps : List PathSegment} {t : AmNode}
    {f : AmNode → Except AmError AmNode} {e : AmError}
    (hres : resolveObj root ps = some t) (hf : f t = .error e) :
    modifyAt root ps f = .error e := by
  induction ps generalizing root with
  | nil =>
    simp [resolveObj] at hres
    subst hres
    simpa [modifyAt] using hf
  | cons seg rest ih =>
    simp only [resolveObj] at hres
    cases hc : childAt root seg with
    | none => simp [hc] at hres
    | some child =>
      simp only [hc] at hres
      have hrec := ih hres
      cases root with
      | scalar s => simp [childAt] at hc
      | map es =>
        cases seg with
        | key k =>
          simp only [childAt] at hc
          simp [modifyAt, hc, hrec, Except.map]
        | index i => simp [childAt] at hc
      | list xs =>
        cases seg with
        | key k => simp [childAt] at hc
        | index i =>
          simp only [childAt] at hc
          simp [modifyAt, hc, hrec, Except.map]

theorem navigate_path_read_of_resolve {root t : AmNode} {ps : List PathSegment}
    (hres : resolveObj root ps = some t) (hobj : t.isObj = true) :
    navigate_path_read root ps = some t := by
  induction ps generalizing root with
  | nil =>
    simp [resolveObj] at hres
    simp [navigate_path_read, hres]
  | cons seg rest ih =>
    simp only [resolveObj] at hres
    cases hc : childAt root seg with
    | none => simp [hc] at hres
    | some child =>
      simp only [hc] at hres
      have hchild : child.isObj = true := by
        cases rest with
        | nil =>
          simp [resolveObj] at hres
          subst hres
          exact hobj
        | cons seg' rest' =>
          simp only [resolveObj] at hres
          cases hc' : childAt child seg' with
          | none => simp [hc'] at hres
          | some c' =>
            cases child with
            | scalar s => simp [childAt] at hc'
            | map es => rfl
            | list xs => rfl
      cases child with
      | scalar s => simp [AmNode.isObj] at hchild
      | map es => simp [navigate_path_read, hc, ih hres]
      | list xs => simp [navigate_path_read, hc, ih hres]

theorem putChild_ok {t t' : AmNode} {seg : PathSegment} {v : AmScalar}
    (h : putChild t seg v = .ok t') :
    t'.isObj = true ∧ childAt t' seg = some (.scalar v) := by
  cases t with
  | scalar s => simp [putChild] at h
  | map es =>
    cases seg with
    | key k =>
      simp only [putChild, Except.ok.injEq] at h
      subst h
      simp [AmNode.isObj, childAt, lookup_setEntry_self]
    | index i => simp [putChild] at h
  | list xs =>
    cases seg with
    | key k => simp [putChild] at h
    | index i =>
      simp only [putChild] at h
      by_cases hi : i < xs.length
      · simp only [hi, if_true, Except.ok.injEq] at h
        subst h
        simp [AmNode.isObj, childAt, List.getElem?_set_self', hi]
      · simp [hi] at h

/-- Unfolding a successful `put_scalar`: the path parsed to a non-empty
segment list, navigation and the leaf put succeeded, and the returned
client's document tree is the tree the leaf put produced. -/
theorem put_scalar_ok_spec {c : RedisAutomergeClient} {p : List Char} {v : AmScalar}
    (h : (put_scalar c p v).1 = none) :
    ∃ segs root1 root2, parse_path p = .ok segs ∧
      ∃ hne : segs ≠ [],
        navigate_or_create_path c.doc.root segs.dropLast = .ok root1 ∧
        put_value_to_parent root1 segs.dropLast (segs.getLast hne) v = .ok root2 ∧
        (put_scalar c p v).2.doc.root = root2 := by
  unfold put_scalar at h ⊢
  cases hp : parse_path p with
  | error e => rw [hp] at h; simp at h
  | ok segs =>
    rw [hp] at h
    dsimp only at h ⊢
    by_cases hne : segs = []
    · rw [dif_pos hne] at h; simp at h
    · rw [dif_neg hne] at h ⊢
      cases hnav : navigate_or_create_path c.doc.root segs.dropLast with
      | error e => rw [hnav] at h; simp at h
      | ok root1 =>
        rw [hnav] at h
        dsimp only at h ⊢
        cases hput : put_value_to_parent root1 segs.dropLast (segs.getLast hne) v with
        | error e => rw [hput] at h; simp at h
        | ok root2 =>
          exact ⟨segs, root1, root2, rfl, hne, hnav, hput, rfl⟩

/-- Evaluating the shared getter skeleton when the parent of the final
segment resolves to an object holding a scalar child there. -/
theorem get_leaf_scalar {c : RedisAutomergeClient} {p : List Char}
    {segs : List PathSegment} {t : AmNode} {v : AmScalar}
    (hp : parse_path p = .ok segs) (hne : segs ≠ [])
    (hres : resolveObj c.doc.root segs.dropLast = some t) (hobj : t.isObj = true)
    (hchild : childAt t (segs.getLast hne) = some (.scalar v)) :
    get_leaf c p = .ok (some (.scalar v)) := by
  unfold get_leaf
  rw [hp]
  dsimp only
  rw [dif_neg hne]
  by_cases hdrop : segs.dropLast = []
  · rw [hdrop] at hres
    simp only [resolveObj] at hres
    cases hres
    simp [hdrop, get_value_from_parent, hchild]
  · have hread := navigate_path_read_of_resolve hres hobj
    simp [hdrop, hread, get_value_from_parent, hchild]

/-- Put-then-read-back at the leaf: after a successful `put_scalar` the
shared getter skeleton finds exactly the stored scalar at the same path. -/
theorem put_scalar_get_leaf {c : RedisAutomergeClient} {p : List Char} {v : AmScalar}
    (h : (put_scalar c p v).1 = none) :
    get_leaf (put_scalar c p v).2 p = .ok (some (.scalar v)) := by
  obtain ⟨segs, root1, root2, hp, hne, hnav, hput, hroot⟩ := put_scalar_ok_spec h
  obtain ⟨t, t', hres1, hpc, hres2⟩ := modifyAt_ok hput
  obtain ⟨hobj', hchild'⟩ := putChild_ok hpc
  have hres2' : resolveObj (put_scalar c p v).2.doc.root segs.dropLast = some t' := by
    rw [hroot]; exact hres2
  exact get_leaf_scalar hp hne hres2' hobj' hchild'

/-! ## Claim C2: put/get consistency -/

/-- C2.  Put/get consistency: for every type `T ∈ {text, int, double,
bool}`, every client, every path on which `put_T` succeeds, and every value
`v` of type `T`, calling `put_T(p, v)` and then `get_T(p)` on the same
client returns `Some(v)`. -/
theorem put_get_consistency :
    (∀ (c : RedisAutomergeClient) (p value : List Char),
      (put_text c p value).1 = none →
      get_text (put_text c p value).2 p = .ok (some value)) ∧
    (∀ (c : RedisAutomergeClient) (p : List Char) (value : Int),
      (put_int c p value).1 = none →
      get_int (put_int c p value).2 p = .ok (some value)) ∧
    (∀ (c : RedisAutomergeClient) (p : List Char) (bits : Nat),
      (put_double c p bits).1 = none →
      get_double (put_double c p bits).2 p = .ok (some bits)) ∧
    (∀ (c : RedisAutomergeClient) (p : List Char) (value : Bool),
      (put_bool c p value).1 = none →
      get_bool (put_bool c p value).2 p = .ok (some value)) := by
  refine ⟨?_, ?_, ?_, ?_⟩
  · intro c p value h
    unfold put_text at h ⊢
    have hg := put_scalar_get_leaf h
    unfold get_text
    rw [hg]
  · intro c p value h
    unfold put_int at h ⊢
    have hg := put_scalar_get_leaf h
    unfold get_int
    rw [hg]
  · intro c p bits h
    unfold put_double at h ⊢
    have hg := put_scalar_get_leaf h
    unfold get_double
    rw [hg]
  · intro c p value h
    unfold put_bool at h ⊢
    have hg := put_scalar_get_leaf h
    unfold get_bool
    rw [hg]

/-- Witness for C2 at concrete inputs (the scenario of spec §8/§1). -/
theorem put_get_consistency_witness :
    get_text (put_text .new "user.name".data "Alice".data).2 "user.name".data
      = .ok (some "Alice".data) ∧
    get_int (put_int .new "a.b.c".data 7).2 "a.b.c".data = .ok (some 7) ∧
    get_double (put_double .new "m.t".data 4614253070214989087).2 "m.t".data
      = .ok (some 4614253070214989087) ∧
    get_bool (put_bool .new "flags.active".data true).2 "flags.active".data
      = .ok (some true) :=
  ⟨put_get_consistency.1 .new "user.name".data "Alice".data rfl,
   put_get_consistency.2.1 .new "a.b.c".data 7 rfl,
   put_get_consistency.2.2.1 .new "m.t".data 4614253070214989087 rfl,
   put_get_consistency.2.2.2 .new "flags.active".data true rfl⟩

/-! ## Claim C9: type isolation -/

/-- C9.  Type isolation: for all distinct types `T ≠ U`, after a successful
`put_T(p, v)` the read `get_U(p)` returns `None` — a soft miss, not an
error.  (`put_scalar` is the shared body of the four `put_T`; the scalar's
tag is `T`.) -/
theorem type_isolation (c : RedisAutomergeClient) (p : List Char)
    (v : AmScalar) (U : ScalarTag) (hok : (put_scalar c p v).1 = none)
    (hU : U ≠ tagOf v) :
    get_tagged U (put_scalar c p v).2 p = .ok none := by
  have hg := put_scalar_get_leaf hok
  cases U <;> cases v <;>
    first
      | exact absurd rfl hU
      | simp [get_tagged, get_text, get_int, get_double, get_bool, hg, Except.map]

/-- Witness for C9: a text is stored, each other-typed read misses. -/
theorem type_isolation_witness :
    get_tagged .int (put_scalar .new "k".data (.str "x".data)).2 "k".data = .ok none ∧
    get_tagged .double (put_scalar .new "k".data (.str "x".data)).2 "k".data = .ok none ∧
    get_tagged .bool (put_scalar .new "k".data (.str "x".data)).2 "k".data = .ok none ∧
    get_tagged .text (put_scalar .new "k".data (.int 3)).2 "k".data = .ok none :=
  ⟨type_isolation .new "k".data (.str "x".data) .int rfl (by decide),
   type_isolation .new "k".data (.str "x".data) .double rfl (by decide),
   type_isolation .new "k".data (.str "x".data) .bool rfl (by decide),
   type_isolation .new "k".data (.int 3) .text rfl (by decide)⟩

/-! ## Claim C7: empty path on leaf operations (corrected)

The writes (`put_T`, `create_list`) do fail on the empty path — ext.rs 328,
400, 451, 502, 574 return `Err(AutomergeError::Fail)` when `segments` is
empty.  But the reads do not: ext.rs 370–372 (and 421–423, 472–474,
523–525) return `Ok(None)`.  The claim is therefore false for the four
`get_T`; the counterexample below shows `get_text` on the empty path
succeeding with `None`, and the amended theorem states the actual split
behaviour. -/

/-- Counterexample to C7 as stated: `""` parses to the empty segment
sequence, yet `get_text` returns `Ok(None)` instead of failing with
`BadPath` (and likewise for `"$."` on `get_int`). -/
theorem empty_path_read_returns_none :
    parse_path "".data = .ok [] ∧
    get_text RedisAutomergeClient.new "".data = .ok none ∧
    parse_path "$.".data = .ok [] ∧
    get_int RedisAutomergeClient.new "$.".data = .ok none :=
  ⟨rfl, rfl, rfl, rfl⟩

/-- C7 amended.  If the path parses to the empty segment sequence, every
leaf write (`put_text`, `put_int`, `put_double`, `put_bool`,
`create_list`) fails with the `BadPath` error (`AutomergeError::Fail`) and
leaves the client unchanged, while every leaf read (`get_text`, `get_int`,
`get_double`, `get_bool`) succeeds with `None`. -/
theorem empty_path_leaf_ops (c : RedisAutomergeClient) (p : List Char)
    (value : List Char) (iv : Int) (bits : Nat) (bv : Bool)
    (hp : parse_path p = .ok []) :
    put_text c p value = (some .fail, c) ∧
    put_int c p iv = (some .fail, c) ∧
    put_double c p bits = (some .fail, c) ∧
    put_bool c p bv = (some .fail, c) ∧
    create_list c p = (some .fail, c) ∧
    get_text c p = .ok none ∧
    get_int c p = .ok none ∧
    get_double c p = .ok none ∧
    get_bool c p = .ok none := by
  refine ⟨?_, ?_, ?_, ?_, ?_, ?_, ?_, ?_, ?_⟩ <;>
    simp [put_text, put_int, put_double, put_bool, put_scalar, create_list,
      get_text, get_int, get_double, get_bool, get_leaf, hp]

/-- Witness for the amended C7 at the concrete empty path. -/
theorem empty_path_leaf_ops_witness :
    put_text RedisAutomergeClient.new "".data "v".data
        = (some .fail, RedisAutomergeClient.new) ∧
    put_int RedisAutomergeClient.new "".data 1
        = (some .fail, RedisAutomergeClient.new) ∧
    put_double RedisAutomergeClient.new "".data 2
        = (some .fail, RedisAutomergeClient.new) ∧
    put_bool RedisAutomergeClient.new "".data true
        = (some .fail, RedisAutomergeClient.new) ∧
    create_list RedisAutomergeClient.new "".data
        = (some .fail, RedisAutomergeClient.new) ∧
    get_text RedisAutomergeClient.new "".data = .ok none ∧
    get_int RedisAutomergeClient.new "".data = .ok none ∧
    get_double RedisAutomergeClient.new "".data = .ok none ∧
    get_bool RedisAutomergeClient.new "".data = .ok none :=
  empty_path_leaf_ops RedisAutomergeClient.new "".data "v".data 1 2 true rfl

/-! ## Claim C10: out-of-range index at the leaf -/

/-- C10.  For every `put_T` (the shared body `put_scalar` covers the four)
whose final path segment is `Index i`, if the parent object reached by
navigation has no element at position `i` (`tx.get(parent, i)` finds
nothing: the parent is a list shorter than `i + 1`, or not a list at all),
then the put returns an error and the client is returned exactly as it was
— the open transaction is dropped without commit, so the document is
unchanged and nothing is appended to the change-buffer. -/
theorem put_index_out_of_range (c : RedisAutomergeClient) (p : List Char)
    (v : AmScalar) (segs : List PathSegment) (i : Nat) (root1 parent : AmNode)
    (hp : parse_path p = .ok (segs ++ [.index i]))
    (hnav : navigate_or_create_path c.doc.root segs = .ok root1)
    (hres : resolveObj root1 segs = some parent)
    (hmiss : childAt parent (.index i) = none) :
    ∃ e, put_scalar c p v = (some e, c) := by
  have hput : ∃ e, putChild parent (.index i) v = .error e := by
    cases parent with
    | scalar s => exact ⟨.invalidOp, rfl⟩
    | map es => exact ⟨.invalidOp, rfl⟩
    | list xs =>
      simp only [childAt] at hmiss
      have hge : ¬i < xs.length := by
        intro hlt
        rw [List.getElem?_eq_getElem hlt] at hmiss
        exact Option.noConfusion hmiss
      exact ⟨.invalidIndex, by simp [putChild, hge]⟩
  obtain ⟨e, he⟩ := hput
  have herr : put_value_to_parent root1 segs (.index i) v = .error e :=
    modifyAt_error hres he
  refine ⟨e, ?_⟩
  unfold put_scalar
  rw [hp]
  dsimp only
  have hne : segs ++ [PathSegment.index i] ≠ [] := by simp
  rw [dif_neg hne]
  have hdrop : (segs ++ [PathSegment.index i]).dropLast = segs := by simp
  have hlast : (segs ++ [PathSegment.index i]).getLast hne = .index i := by
    simp [List.getLast_append]
  rw [hdrop, hlast, hnav]
  dsimp only
  rw [herr]

/-- Witness for C10: a freshly created empty list `l`, then
`put_text("l[0]", "v")` — position 0 does not exist, the put fails and the
client is unchanged. -/
theorem put_index_out_of_range_witness :
    ∃ e, put_scalar (create_list RedisAutomergeClient.new "l".data).2 "l[0]".data
      (.str "v".data) = (some e, (create_list RedisAutomergeClient.new "l".data).2) :=
  put_index_out_of_range (create_list RedisAutomergeClient.new "l".data).2
    "l[0]".data (.str "v".data) [.key "l".data] 0
    (create_list RedisAutomergeClient.new "l".data).2.doc.root (.list [])
    rfl rfl rfl rfl

/-! ## Claim C8: list no-autocreate -/

/-- C8.  On a freshly created client, `append_text("l", v)` fails for every
value `v` (append never creates the list); after a successful
`create_list("l")` the same `append_text("l", v)` succeeds. -/
theorem append_requires_create_list :
    (∀ value : List Char,
      (append_text RedisAutomergeClient.new "l".data value).1 = some .fail) ∧
    (∀ value : List Char, ∀ c' : RedisAutomergeClient,
      create_list RedisAutomergeClient.new "l".data = (none, c') →
      (append_text c' "l".data value).1 = none) := by
  constructor
  · intro value
    rfl
  · intro value c' hc
    have hc' : c' = (create_list RedisAutomergeClient.new "l".data).2 := by
      rw [hc]
    subst hc'
    rfl

/-- Witness for C8 at a concrete value. -/
theorem append_requires_create_list_witness :
    (append_text RedisAutomergeClient.new "l".data "x".data).1 = some .fail ∧
    (append_text (create_list RedisAutomergeClient.new "l".data).2 "l".data "x".data).1
      = none :=
  ⟨append_requires_create_list.1 "x".data,
   append_requires_create_list.2 "x".data
     (create_list RedisAutomergeClient.new "l".data).2 rfl⟩

/-! ## Claim C1: foreign-apply atomicity (code bug)

`am_apply` (lib.rs 656–662) parses every blob before touching the client,
so a parse failure is atomic.  But `RedisAutomergeClient::apply` (ext.rs
772–778) pushes the raw blobs onto `aof` *before* calling
`doc.apply_changes(changes)?` and has no rollback on the error path: when
the engine rejects the batch the buffer keeps the appended blobs, contrary
to the claim, to spec §4.F ("the core MUST roll the buffer back to its
prior length"), to §7 ("A failure during `apply` restores the change-buffer
to its prior length"), and to the method's own doc comment (ext.rs 240–241:
the recorded bytes are those "of the applied changes").  The theorem
evaluates the code at the failing input. -/

/-- C1 at the failing input: a fresh client is handed one well-formed blob
`[1, 5, 1, 9]` (a change with hash 5 depending on the absent change 9).
The engine rejects the batch and the error is returned; the document is
indeed unchanged, but the change-buffer — empty before the call — now
holds the blob instead of being rolled back to its prior length. -/
theorem apply_engine_reject_keeps_buffer :
    (am_apply RedisAutomergeClient.new [[1, 5, 1, 9]]).1 = some .missingDeps ∧
    (am_apply RedisAutomergeClient.new [[1, 5, 1, 9]]).2.doc.root
      = RedisAutomergeClient.new.doc.root ∧
    RedisAutomergeClient.new.aof = [] ∧
    (am_apply RedisAutomergeClient.new [[1, 5, 1, 9]]).2.aof = [[1, 5, 1, 9]] :=
  ⟨rfl, rfl, rfl, rfl⟩

/-! ## Claim C4: change-buffer contents and drain (corrected)

Because a batch rejected by the engine is *not* rolled back (see C1), the
buffer does not hold only the changes of *successful* apply calls: after a
failed apply it also holds that batch's blobs.  The counterexample shows
this; the amended invariant accounts for every apply call that reached the
engine, successful or not. -/

/-- Counterexample to C4 as stated: on a fresh client a single `apply`
call fails (so no successful apply and no successful local mutation has
happened since the buffer was last empty), yet the buffer now holds the
batch's blob — not the empty sequence the claim requires. -/
theorem failed_apply_extends_buffer :
    (RedisAutomergeClient.apply RedisAutomergeClient.new
        [⟨5, [9], [1, 5, 1, 9]⟩]).1 = some .missingDeps ∧
    (RedisAutomergeClient.apply RedisAutomergeClient.new
        [⟨5, [9], [1, 5, 1, 9]⟩]).2.aof = [[1, 5, 1, 9]] :=
  ⟨rfl, rfl⟩

theorem put_scalar_aof (c : RedisAutomergeClient) (p : List Char) (v : AmScalar) :
    (put_scalar c p v).2.aof
      = c.aof ++ (if (put_scalar c p v).1 = none then [(mkLocalChange c.doc).raw] else []) := by
  unfold put_scalar
  cases parse_path p with
  | error e => simp
  | ok segs =>
    dsimp only
    by_cases hne : segs = []
    · simp [hne]
    · rw [dif_neg hne]
      cases navigate_or_create_path c.doc.root segs.dropLast with
      | error e => simp
      | ok root1 =>
        dsimp only
        cases put_value_to_parent root1 segs.dropLast (segs.getLast hne) v with
        | error e => simp
        | ok root2 => simp [commit_change]

theorem create_list_aof (c : RedisAutomergeClient) (p : List Char) :
    (create_list c p).2.aof
      = c.aof ++ (if (create_list c p).1 = none then [(mkLocalChange c.doc).raw] else []) := by
  unfold create_list
  cases parse_path p with
  | error e => simp
  | ok segs =>
    dsimp only
    by_cases hne : segs = []
    · simp [hne]
    · rw [dif_neg hne]
      cases navigate_or_create_path c.doc.root segs.dropLast with
      | error e => simp
      | ok root1 =>
        dsimp only
        cases hlast : segs.getLast hne with
        | key k =>
          cases hobj : put_object_at root1 segs.dropLast k .list with
          | error e => simp [hobj]
          | ok root2 => simp [hobj, commit_change]
        | index i => simp

theorem append_scalar_aof (c : RedisAutomergeClient) (p : List Char) (v : AmScalar) :
    (append_scalar c p v).2.aof
      = c.aof ++ (if (append_scalar c p v).1 = none then [(mkLocalChange c.doc).raw] else []) := by
  unfold append_scalar
  cases parse_path p with
  | error e => simp
  | ok segs =>
    dsimp only
    cases hfound : (if segs = [] then some c.doc.root
        else navigate_path_read c.doc.root segs) with
    | none => simp
    | some listNode =>
      dsimp only
      cases insert_at c.doc.root segs (nodeLength listNode) v with
      | error e => simp
      | ok root' => simp [commit_change]

theorem apply_aof (c : RedisAutomergeClient) (chs : List Change) :
    (RedisAutomergeClient.apply c chs).2.aof = c.aof ++ chs.map Change.raw := by
  unfold RedisAutomergeClient.apply
  cases engineApplyChanges c.doc chs <;> rfl

/-- C4 amended.  Along any trace of client operations the change-buffer
holds exactly the blobs the operations appended since the last drain, in
production order — the raw bytes of the single change committed by each
successful local mutation and the raw blobs of *every* batch handed to
`apply` (including batches the engine rejected; see C1) — and `commands`
returns exactly the current buffer and resets it to empty, so an
immediately following `commands` returns the empty sequence. -/
theorem change_buffer_invariant :
    (∀ (ops : List ClientOp) (c : RedisAutomergeClient),
      (runOps c ops).aof = bufferSpec c.aof c ops) ∧
    (∀ c : RedisAutomergeClient, commands c = (c.aof, ⟨c.doc, []⟩)) ∧
    (∀ c : RedisAutomergeClient, (commands (commands c).2).1 = []) := by
  refine ⟨?_, fun c => rfl, fun c => rfl⟩
  intro ops
  induction ops with
  | nil => intro c; rfl
  | cons op ops ih =>
    intro c
    cases op with
    | drainOp =>
      show (runOps (runOp c .drainOp) ops).aof = bufferSpec [] (runOp c .drainOp) ops
      have h0 : (runOp c .drainOp).aof = [] := rfl
      rw [← h0]
      exact ih _
    | putOp p v =>
      show (runOps (runOp c (.putOp p v)) ops).aof
        = bufferSpec (c.aof ++ producedBlobs c (.putOp p v)) (runOp c (.putOp p v)) ops
      have h0 : (runOp c (.putOp p v)).aof = c.aof ++ producedBlobs c (.putOp p v) :=
        put_scalar_aof c p v
      rw [← h0]
      exact ih _
    | createListOp p =>
      show (runOps (runOp c (.createListOp p)) ops).aof
        = bufferSpec (c.aof ++ producedBlobs c (.createListOp p)) (runOp c (.createListOp p)) ops
      have h0 : (runOp c (.createListOp p)).aof = c.aof ++ producedBlobs c (.createListOp p) :=
        create_list_aof c p
      rw [← h0]
      exact ih _
    | appendOp p v =>
      show (runOps (runOp c (.appendOp p v)) ops).aof
        = bufferSpec (c.aof ++ producedBlobs c (.appendOp p v)) (runOp c (.appendOp p v)) ops
      have h0 : (runOp c (.appendOp p v)).aof = c.aof ++ producedBlobs c (.appendOp p v) :=
        append_scalar_aof c p v
      rw [← h0]
      exact ih _
    | applyOp chs =>
      show (runOps (runOp c (.applyOp chs)) ops).aof
        = bufferSpec (c.aof ++ producedBlobs c (.applyOp chs)) (runOp c (.applyOp chs)) ops
      have h0 : (runOp c (.applyOp chs)).aof = c.aof ++ producedBlobs c (.applyOp chs) :=
        apply_aof c chs
      rw [← h0]
      exact ih _

/-! ## Claim C5: create-maps navigation (corrected)

The claim's `Key` clause says an absent child is always created as a new
empty map.  That holds when the current node is a map, but when the walk
has descended into a *list* (which the `Key` clause itself allows: "an
existing child object (map OR list)"), a later `Key` segment finds no
child — lists have no string-keyed children — and the
`tx.put_object(list, key, Map)` the code then issues is refused by the
engine, so the walk fails instead of creating a map.  The counterexample
exhibits this; the amended theorem states the full step behaviour. -/

/-- Counterexample to C5 as stated: in the document `{xs: []}`, walking
`xs.f` descends into the list `xs`; at the segment `Key "f"` the child is
absent, yet the walk returns an error instead of creating a new empty map
under `"f"`. -/
theorem create_maps_on_list_parent_fails :
    childAt (AmNode.list []) (.key "f".data) = none ∧
    navigate_or_create_path (.map [("xs".data, .list [])])
      [.key "xs".data, .key "f".data] = .error .invalidOp :=
  ⟨rfl, rfl⟩

theorem nav_create_preserves_lists {node node' : AmNode} {ps : List PathSegment}
    (h : navigate_or_create_path node ps = .ok node') :
    ∀ (q : List PathSegment) (xs : List AmNode),
      resolveObj node q = some (.list xs) →
      ∃ xs', resolveObj node' q = some (.list xs') ∧ xs'.length = xs.length := by
  induction ps generalizing node node' with
  | nil =>
    simp only [navigate_or_create_path, Except.ok.injEq] at h
    subst h
    exact fun q xs hq => ⟨xs, hq, rfl⟩
  | cons seg rest ih =>
    cases node with
    | scalar s =>
      cases seg <;> simp [navigate_or_create_path] at h
    | map es =>
      cases seg with
      | index i => simp [navigate_or_create_path] at h
      | key k =>
        simp only [navigate_or_create_path] at h
        intro q xs hq
        cases hc : lookupEntry es k with
        | some child =>
          rw [hc] at h
          cases child with
          | scalar s => simp at h
          | map es' =>
            cases hrec : navigate_or_create_path (.map es') rest with
            | error e => simp [hrec, Except.map] at h
            | ok child' =>
              simp only [hrec, Except.map, Except.ok.injEq] at h
              subst h
              cases q with
              | nil => simp [resolveObj] at hq
              | cons seg' q' =>
                cases seg' with
                | index i => simp [resolveObj, childAt] at hq
                | key k' =>
                  simp only [resolveObj, childAt] at hq ⊢
                  by_cases hk : k' = k
                  · subst hk
                    rw [hc] at hq
                    rw [lookup_setEntry_self]
                    exact ih hrec q' xs hq
                  · rw [lookup_setEntry_ne _ _ hk]
                    exact ⟨xs, hq, rfl⟩
          | list xs0 =>
            cases hrec : navigate_or_create_path (.list xs0) rest with
            | error e => simp [hrec, Except.map] at h
            | ok child' =>
              simp only [hrec, Except.map, Except.ok.injEq] at h
              subst h
              cases q with
              | nil => simp [resolveObj] at hq
              | cons seg' q' =>
                cases seg' with
                | index i => simp [resolveObj, childAt] at hq
                | key k' =>
                  simp only [resolveObj, childAt] at hq ⊢
                  by_cases hk : k' = k
                  · subst hk
                    rw [hc] at hq
                    rw [lookup_setEntry_self]
                    exact ih hrec q' xs hq
                  · rw [lookup_setEntry_ne _ _ hk]
                    exact ⟨xs, hq, rfl⟩
        | none =>
          rw [hc] at h
          cases hrec : navigate_or_create_path (.map []) rest with
          | error e => simp [hrec, Except.map] at h
          | ok child' =>
            simp only [hrec, Except.map, Except.ok.injEq] at h
            subst h
            cases q with
            | nil => simp [resolveObj] at hq
            | cons seg' q' =>
              cases seg' with
              | index i => simp [resolveObj, childAt] at hq
              | key k' =>
                simp only [resolveObj, childAt] at hq ⊢
                by_cases hk : k' = k
                · subst hk
                  rw [hc] at hq
                  simp at hq
                · rw [lookup_setEntry_ne _ _ hk]
                  exact ⟨xs, hq, rfl⟩
    | list xs0 =>
      cases seg with
      | key k => simp [navigate_or_create_path] at h
      | index i =>
        simp only [navigate_or_create_path] at h
        intro q xs hq
        cases hc : xs0[i]? with
        | none => rw [hc] at h; simp at h
        | some child =>
          rw [hc] at h
          have hi : i < xs0.length := by
            by_contra hge
            rw [List.getElem?_eq_none (Nat.le_of_not_lt hge)] at hc
            exact Option.noConfusion hc
          cases child with
          | scalar s => simp at h
          | map es' =>
            cases hrec : navigate_or_create_path (.map es') rest with
            | error e => simp [hrec, Except.map] at h
            | ok child' =>
              simp only [hrec, Except.map, Except.ok.injEq] at h
              subst h
              cases q with
              | nil =>
                simp only [resolveObj, Option.some.injEq] at hq
                cases hq
                exact ⟨xs0.set i child', by simp [resolveObj], by simp⟩
              | cons seg' q' =>
                cases seg' with
                | key k' => simp [resolveObj, childAt] at hq
                | index i' =>
                  simp only [resolveObj, childAt] at hq ⊢
                  by_cases hii : i' = i
                  · subst hii
                    rw [hc] at hq
                    dsimp only at hq
                    have hs : (xs0.set i' child')[i']? = some child' := by
                      simp [List.getElem?_set_self', hi]
                    rw [hs]
                    exact ih hrec q' xs hq
                  · rw [List.getElem?_set_ne (Ne.symm hii)]
                    exact ⟨xs, hq, rfl⟩
          | list xsc =>
            cases hrec : navigate_or_create_path (.list xsc) rest with
            | error e => simp [hrec, Except.map] at h
            | ok child' =>
              simp only [hrec, Except.map, Except.ok.injEq] at h
              subst h
              cases q with
              | nil =>
                simp only [resolveObj, Option.some.injEq] at hq
                cases hq
                exact ⟨xs0.set i child', by simp [resolveObj], by simp⟩
              | cons seg' q' =>
                cases seg' with
                | key k' => simp [resolveObj, childAt] at hq
                | index i' =>
                  simp only [resolveObj, childAt] at hq ⊢
                  by_cases hii : i' = i
                  · subst hii
                    rw [hc] at hq
                    dsimp only at hq
                    have hs : (xs0.set i' child')[i']? = some child' := by
                      simp [List.getElem?_set_self', hi]
                    rw [hs]
                    exact ih hrec q' xs hq
                  · rw [List.getElem?_set_ne (Ne.symm hii)]
                    exact ⟨xs, hq, rfl⟩

/-- C5 amended.  Step behaviour of the create-maps walk, and that it never
extends a list:
1. a `Key` segment whose child exists and is an object (map or list)
   descends into it;
2. a `Key` segment whose child exists and is a scalar fails;
3. a `Key` segment on a map whose child is absent creates a new empty map
   under the key and descends into it;
4. a `Key` segment on a list (where a child object can never exist) fails
   instead of creating a map — the correction to the claim;
5. an `Index` segment whose element exists and is an object descends into
   it;
6. an `Index` segment whose element exists and is a scalar fails;
7. an `Index` segment whose position does not exist in the current node
   (out of bounds, or the node is not a list) fails;
8. a successful walk leaves every list already present in the document at
   exactly its old length — the navigator never extends a list. -/
theorem navigator_create_maps :
    (∀ (es : List (List Char × AmNode)) (k : List Char) (rest : List PathSegment)
        (child : AmNode), lookupEntry es k = some child → child.isObj = true →
      navigate_or_create_path (.map es) (.key k :: rest)
        = (navigate_or_create_path child rest).map fun c' => .map (setEntry es k c')) ∧
    (∀ (node : AmNode) (k : List Char) (rest : List PathSegment) (s : AmScalar),
        childAt node (.key k) = some (.scalar s) →
      navigate_or_create_path node (.key k :: rest) = .error .fail) ∧
    (∀ (es : List (List Char × AmNode)) (k : List Char) (rest : List PathSegment),
        lookupEntry es k = none →
      navigate_or_create_path (.map es) (.key k :: rest)
        = (navigate_or_create_path (.map []) rest).map fun c' => .map (setEntry es k c')) ∧
    (∀ (xs : List AmNode) (k : List Char) (rest : List PathSegment),
      navigate_or_create_path (.list xs) (.key k :: rest) = .error .invalidOp) ∧
    (∀ (xs : List AmNode) (i : Nat) (rest : List PathSegment) (child : AmNode),
        xs[i]? = some child → child.isObj = true →
      navigate_or_create_path (.list xs) (.index i :: rest)
        = (navigate_or_create_path child rest).map fun c' => .list (xs.set i c')) ∧
    (∀ (node : AmNode) (i : Nat) (rest : List PathSegment) (s : AmScalar),
        childAt node (.index i) = some (.scalar s) →
      navigate_or_create_path node (.index i :: rest) = .error .fail) ∧
    (∀ (node : AmNode) (i : Nat) (rest : List PathSegment),
        childAt node (.index i) = none →
      navigate_or_create_path node (.index i :: rest) = .error .fail) ∧
    (∀ (node node' : AmNode) (ps : List PathSegment),
        navigate_or_create_path node ps = .ok node' →
      ∀ (q : List PathSegment) (xs : List AmNode),
        resolveObj node q = some (.list xs) →
        ∃ xs', resolveObj node' q = some (.list xs') ∧ xs'.length = xs.length) := by
  refine ⟨?_, ?_, ?_, ?_, ?_, ?_, ?_, fun _ _ _ h => nav_create_preserves_lists h⟩
  · intro es k rest child hc hobj
    cases child with
    | scalar s => simp [AmNode.isObj] at hobj
    | map es' => simp [navigate_or_create_path, hc]
    | list xs => simp [navigate_or_create_path, hc]
  · intro node k rest s hc
    cases node with
    | scalar s' => simp [childAt] at hc
    | list xs => simp [childAt] at hc
    | map es => simp only [childAt] at hc; simp [navigate_or_create_path, hc]
  · intro es k rest hc
    simp [navigate_or_create_path, hc]
  · intro xs k rest
    rfl
  · intro xs i rest child hc hobj
    cases child with
    | scalar s => simp [AmNode.isObj] at hobj
    | map es' => simp [navigate_or_create_path, hc]
    | list xs' => simp [navigate_or_create_path, hc]
  · intro node i rest s hc
    cases node with
    | scalar s' => simp [childAt] at hc
    | map es => simp [childAt] at hc
    | list xs => simp only [childAt] at hc; simp [navigate_or_create_path, hc]
  · intro node i rest hc
    cases node with
    | scalar s' => rfl
    | map es => rfl
    | list xs => simp only [childAt] at hc; simp [navigate_or_create_path, hc]

/-- Witness for the amended C5 at concrete inputs: descending into an
existing map child, creating an absent child on a map, failing on a list
parent, and preserving the length of an existing list. -/
theorem navigator_create_maps_witness :
    navigate_or_create_path (.map [("a".data, .map [])]) [.key "a".data]
      = (navigate_or_create_path (.map []) []).map
          (fun c' => .map (setEntry [("a".data, AmNode.map [])] "a".data c')) ∧
    navigate_or_create_path (.map []) [.key "b".data]
      = (navigate_or_create_path (.map []) []).map
          (fun c' => .map (setEntry [] "b".data c')) ∧
    navigate_or_create_path (.list []) [.key "f".data] = .error .invalidOp ∧
    (∃ xs', resolveObj (AmNode.map [("l".data, .list [.scalar (.int 1)]), ("b".data, .map [])])
        [.key "l".data] = some (.list xs') ∧ xs'.length = 1) :=
  ⟨navigator_create_maps.1 [("a".data, .map [])] "a".data [] (.map []) rfl rfl,
   navigator_create_maps.2.2.1 [] "b".data [] rfl,
   navigator_create_maps.2.2.2.1 [] "f".data [],
   navigator_create_maps.2.2.2.2.2.2.2
     (.map [("l".data, .list [.scalar (.int 1)])])
     (.map [("l".data, .list [.scalar (.int 1)]), ("b".data, .map [])])
     [.key "b".data] rfl [.key "l".data] [.scalar (.int 1)] rfl⟩

/-! ## Claim C6: empty key segments (corrected)

The parser only ever pushes `current` as a key when `current` is
non-empty (ext.rs 72–75, 78–81, 107–109), so an empty key produced by a
leading dot, a trailing dot or two consecutive dots is silently *skipped*,
not rejected — the spec itself records this as an open question (§4.A,
§9a).  The counterexample shows concrete such paths parsing successfully;
the amended theorem characterises the behaviour on every dotted path. -/

/-- Counterexample to C6 as stated: `"a..b"`, `".a"` and `"a."` all
contain an empty key segment, yet `parse_path` returns a segment sequence
(with the empty keys dropped) instead of a `BadPath` error. -/
theorem empty_key_segments_not_rejected :
    parse_path "a..b".data = .ok [.key "a".data, .key "b".data] ∧
    parse_path ".a".data = .ok [.key "a".data] ∧
    parse_path "a.".data = .ok [.key "a".data] :=
  ⟨rfl, rfl, rfl⟩

theorem parseLoop_no_brackets (chars : List Char)
    (hclean : ∀ ch ∈ chars, ch ≠ '[' ∧ ch ≠ ']') :
    ∀ (segments : List PathSegment) (cur bc : List Char),
      parseLoop segments cur false bc chars = .ok (segments ++ splitKeys cur chars) := by
  induction chars with
  | nil =>
    intro segments cur bc
    simp only [parseLoop, splitKeys]
    by_cases hc : cur.isEmpty <;> simp [hc]
  | cons c rest ih =>
    intro segments cur bc
    obtain ⟨hnb1, hnb2⟩ := hclean c (by simp)
    have hrest : ∀ ch ∈ rest, ch ≠ '[' ∧ ch ≠ ']' :=
      fun ch hm => hclean ch (by simp [hm])
    by_cases hdot : c = '.'
    · subst hdot
      have hstep : parseLoop segments cur false bc ('.' :: rest)
          = parseLoop (if cur.isEmpty then segments else segments ++ [.key cur])
              [] false bc rest := by
        simp [parseLoop]
      rw [hstep, ih hrest]
      simp only [splitKeys, if_pos rfl]
      by_cases hc : cur.isEmpty <;> simp [hc]
    · have hstep : parseLoop segments cur false bc (c :: rest)
          = parseLoop segments (cur ++ [c]) false bc rest := by
        simp [parseLoop, hdot, hnb1, hnb2]
      rw [hstep, ih hrest]
      simp [splitKeys, hdot]

theorem splitKeys_dotfree (w : List Char) :
    (∀ ch ∈ w, ch ≠ '.') →
    ∀ cur, splitKeys cur w
      = if (cur ++ w).isEmpty then [] else [.key (cur ++ w)] := by
  induction w with
  | nil => intro _ cur; simp [splitKeys]
  | cons c rest ih =>
    intro hw cur
    have hd : c ≠ '.' := hw c (by simp)
    simp only [splitKeys, if_neg hd]
    rw [ih (fun ch hm => hw ch (by simp [hm]))]
    simp

theorem splitKeys_append_dot (w : List Char) :
    (∀ ch ∈ w, ch ≠ '.') →
    ∀ (cur rest : List Char), splitKeys cur (w ++ '.' :: rest)
      = (if (cur ++ w).isEmpty then [] else [.key (cur ++ w)]) ++ splitKeys [] rest := by
  induction w with
  | nil => intro _ cur rest; simp [splitKeys]
  | cons c w' ih =>
    intro hw cur rest
    have hd : c ≠ '.' := hw c (by simp)
    simp only [List.cons_append, splitKeys, if_neg hd]
    rw [List.append_eq, ih (fun ch hm => hw ch (by simp [hm]))]
    simp

theorem splitKeys_joinDots (ws : List (List Char)) :
    (∀ w ∈ ws, ∀ ch ∈ w, ch ≠ '.') →
    splitKeys [] (joinDots ws)
      = (ws.filter fun w => !w.isEmpty).map PathSegment.key := by
  induction ws with
  | nil => intro _; rfl
  | cons w ws ih =>
    intro hws
    cases ws with
    | nil =>
      rw [show joinDots [w] = w from rfl,
        splitKeys_dotfree w (hws w (by simp)) []]
      by_cases hw0 : w.isEmpty <;> simp [hw0, List.filter]
    | cons w2 ws2 =>
      rw [show joinDots (w :: w2 :: ws2) = w ++ '.' :: joinDots (w2 :: ws2) from rfl,
        splitKeys_append_dot w (hws w (by simp)) [] _,
        ih (fun w' hm => hws w' (by simp [hm]))]
      by_cases hw0 : w.isEmpty <;> simp [hw0, List.filter]

theorem mem_joinDots {ch : Char} :
    ∀ ws : List (List Char), ch ∈ joinDots ws → ch = '.' ∨ ∃ w ∈ ws, ch ∈ w := by
  intro ws
  induction ws with
  | nil => intro h; simp [joinDots] at h
  | cons w ws ih =>
    cases ws with
    | nil =>
      intro h
      rw [show joinDots [w] = w from rfl] at h
      exact Or.inr ⟨w, by simp, h⟩
    | cons w2 ws2 =>
      intro h
      rw [show joinDots (w :: w2 :: ws2) = w ++ '.' :: joinDots (w2 :: ws2) from rfl] at h
      rcases List.mem_append.mp h with hw | hrest
      · exact Or.inr ⟨w, by simp, hw⟩
      · rcases List.mem_cons.mp hrest with hdot | hjoin
        · exact Or.inl hdot
        · rcases ih hjoin with hdot | ⟨w', hw', hch⟩
          · exact Or.inl hdot
          · exact Or.inr ⟨w', by simp [hw'], hch⟩

theorem joinDots_nil_filter (ws : List (List Char)) (hne : ws ≠ [])
    (hj : (joinDots ws).isEmpty = true) :
    (ws.filter fun w => !w.isEmpty) = [] := by
  cases ws with
  | nil => exact absurd rfl hne
  | cons w ws' =>
    cases ws' with
    | nil =>
      rw [show joinDots [w] = w from rfl] at hj
      simp [List.filter, hj]
    | cons w2 ws2 =>
      rw [show joinDots (w :: w2 :: ws2) = w ++ '.' :: joinDots (w2 :: ws2) from rfl] at hj
      simp at hj

/-- C6 amended.  A path built from words joined by `'.'` — covering a
leading dot (first word empty), a trailing dot (last word empty) and
consecutive dots (an interior word empty) — is never rejected: provided
the words use no `'.'`/`'['`/`']'` and the path does not begin with the
literal prefix `"$."`, the parser succeeds and returns the non-empty words
as keys, silently skipping every empty key segment. -/
theorem empty_keys_skipped (ws : List (List Char)) (hne : ws ≠ [])
    (hclean : ∀ w ∈ ws, ∀ ch ∈ w, ch ≠ '.' ∧ ch ≠ '[' ∧ ch ≠ ']')
    (hhead : ws.head? ≠ some ['$']) :
    parse_path (joinDots ws)
      = .ok ((ws.filter fun w => !w.isEmpty).map PathSegment.key) := by
  have hstrip : stripDollarDot (joinDots ws) = joinDots ws := by
    cases ws with
    | nil => exact absurd rfl hne
    | cons w ws' =>
      have hjoin : joinDots (w :: ws') = w ++ (if ws' = [] then [] else '.' :: joinDots ws') := by
        cases ws' <;> simp [joinDots]
      rw [hjoin]
      cases w with
      | nil =>
        cases ws' with
        | nil => rfl
        | cons w2 ws2 =>
          simp only [if_neg (by simp : ¬(w2 :: ws2 = []))]
          cases joinDots (w2 :: ws2) with
          | nil => rfl
          | cons d rest =>
            show stripDollarDot ('.' :: d :: rest) = '.' :: d :: rest
            simp [stripDollarDot]
      | cons c w' =>
        by_cases hc : c = '$'
        · subst hc
          cases w' with
          | nil =>
            cases ws' with
            | nil => rfl
            | cons w2 ws2 => exact absurd rfl hhead
          | cons d w'' =>
            have hd : d ≠ '.' := (hclean ('$' :: d :: w'') (by simp) d (by simp)).1
            show stripDollarDot ('$' :: d :: (w'' ++ _)) = _
            simp [stripDollarDot, hd]
        · cases w' with
          | nil =>
            cases ws' with
            | nil => rfl
            | cons w2 ws2 =>
              show stripDollarDot (c :: '.' :: joinDots (w2 :: ws2)) = _
              simp [stripDollarDot, hc]
          | cons d w'' =>
            show stripDollarDot (c :: d :: (w'' ++ _)) = _
            simp [stripDollarDot, hc]
  unfold parse_path
  rw [hstrip]
  by_cases hj : (joinDots ws).isEmpty
  · rw [if_pos hj, joinDots_nil_filter ws hne hj]
    rfl
  · rw [if_neg hj]
    have hnb : ∀ ch ∈ joinDots ws, ch ≠ '[' ∧ ch ≠ ']' := by
      intro ch hm
      rcases mem_joinDots ws hm with hdot | ⟨w, hw, hch⟩
      · subst hdot; exact ⟨by decide, by decide⟩
      · exact ⟨(hclean w hw ch hch).2.1, (hclean w hw ch hch).2.2⟩
    rw [parseLoop_no_brackets (joinDots ws) hnb [] [] []]
    rw [splitKeys_joinDots ws (fun w hw ch hch => (hclean w hw ch hch).1)]
    rfl

/-- Witness for the amended C6: `"a..b"` (interior empty key), `".a"`
(leading) and `"a."` (trailing) all parse with the empty keys skipped. -/
theorem empty_keys_skipped_witness :
    parse_path (joinDots [['a'], [], ['b']])
      = .ok (([['a'], [], ['b']].filter fun w => !w.isEmpty).map PathSegment.key) ∧
    parse_path (joinDots [[], ['a']])
      = .ok (([[], ['a']].filter fun w => !w.isEmpty).map PathSegment.key) ∧
    parse_path (joinDots [['a'], []])
      = .ok (([['a'], []].filter fun w => !w.isEmpty).map PathSegment.key) :=
  ⟨empty_keys_skipped [['a'], [], ['b']] (by simp) (by decide) (by decide),
   empty_keys_skipped [[], ['a']] (by simp) (by decide) (by decide),
   empty_keys_skipped [['a'], []] (by simp) (by decide) (by decide)⟩

/-! ## Claim C3: snapshot round-trip -/

theorem decode_encodeStr (s : List Char) (r : List Nat) :
    decodeStr (encodeStr s ++ r) = some (s, r) := by
  have hlen : (s.map Char.toNat).length = s.length := by simp
  have h1 : (s.map Char.toNat ++ r).take s.length = s.map Char.toNat := by
    have := List.take_left (s.map Char.toNat) r
    rwa [hlen] at this
  have h2 : (s.map Char.toNat ++ r).drop s.length = r := by
    have := List.drop_left (s.map Char.toNat) r
    rwa [hlen] at this
  simp only [encodeStr, List.cons_append, decodeStr]
  rw [if_pos (by simp), h1, h2]
  simp [List.map_map, Function.comp_def, Char.ofNat_toNat]

theorem decode_encodeScalar (v : AmScalar) (r : List Nat) :
    decodeScalar (encodeScalar v ++ r) = some (v, r) := by
  cases v with
  | str s => simp [encodeScalar, decodeScalar, decode_encodeStr]
  | int i =>
    by_cases hi : i < 0
    · show decodeScalar (1 :: (if i < 0 then 1 else 0) :: i.natAbs :: r)
        = some (.int i, r)
      rw [if_pos hi]
      simp only [decodeScalar, Option.some.injEq, Prod.mk.injEq, AmScalar.int.injEq, and_true]
      simp only [if_true]
      omega
    · show decodeScalar (1 :: (if i < 0 then 1 else 0) :: i.natAbs :: r)
        = some (.int i, r)
      rw [if_neg hi]
      simp only [decodeScalar, Option.some.injEq, Prod.mk.injEq, AmScalar.int.injEq, and_true]
      rw [if_neg (by decide)]
      omega
  | f64 bits => rfl
  | boolean b => cases b <;> rfl

mutual

theorem decode_encodeNode : ∀ (v : AmNode) (fuel : Nat), depthNode v ≤ fuel →
    ∀ r, decodeNodeF fuel (encodeNode v ++ r) = some (v, r)
  | .scalar s, 0, h, r => by simp [depthNode] at h
  | .scalar s, fuel + 1, h, r => by
    show decodeNodeF (fuel + 1) (0 :: (encodeScalar s ++ r)) = some (.scalar s, r)
    simp [decodeNodeF, decode_encodeScalar]
  | .map es, 0, h, r => by simp [depthNode] at h
  | .map es, fuel + 1, h, r => by
    have hd : depthEntries es ≤ fuel := by
      simp only [depthNode] at h
      omega
    have hrec := decode_encodeEntries es fuel hd r
    show decodeNodeF (fuel + 1) (1 :: es.length :: (encodeEntries es ++ r))
      = some (.map es, r)
    simp [decodeNodeF, hrec]
  | .list xs, 0, h, r => by simp [depthNode] at h
  | .list xs, fuel + 1, h, r => by
    have hd : depthElems xs ≤ fuel := by
      simp only [depthNode] at h
      omega
    have hrec := decode_encodeElems xs fuel hd r
    show decodeNodeF (fuel + 1) (2 :: xs.length :: (encodeElems xs ++ r))
      = some (.list xs, r)
    simp [decodeNodeF, hrec]

theorem decode_encodeEntries : ∀ (es : List (List Char × AmNode)) (fuel : Nat),
    depthEntries es ≤ fuel →
    ∀ r, decodeEntriesF fuel es.length (encodeEntries es ++ r) = some (es, r)
  | [], fuel, _, r => by simp [encodeEntries, decodeEntriesF]
  | (k, v) :: rest, fuel, h, r => by
    have hv : depthNode v ≤ fuel :=
      le_trans (le_max_left _ _) (by simpa [depthEntries] using h)
    have hr : depthEntries rest ≤ fuel :=
      le_trans (le_max_right _ _) (by simpa [depthEntries] using h)
    have h1 := decode_encodeStr k (encodeNode v ++ (encodeEntries rest ++ r))
    have h2 := decode_encodeNode v fuel hv (encodeEntries rest ++ r)
    have h3 := decode_encodeEntries rest fuel hr r
    show decodeEntriesF fuel (rest.length + 1)
      ((encodeStr k ++ (encodeNode v ++ encodeEntries rest)) ++ r)
      = some ((k, v) :: rest, r)
    rw [List.append_assoc, List.append_assoc]
    simp only [decodeEntriesF]
    rw [h1]
    dsimp only
    rw [h2]
    dsimp only
    rw [h3]
    rfl

theorem decode_encodeElems : ∀ (xs : List AmNode) (fuel : Nat), depthElems xs ≤ fuel →
    ∀ r, decodeElemsF fuel xs.length (encodeElems xs ++ r) = some (xs, r)
  | [], fuel, _, r => by simp [encodeElems, decodeElemsF]
  | v :: rest, fuel, h, r => by
    have hv : depthNode v ≤ fuel :=
      le_trans (le_max_left _ _) (by simpa [depthElems] using h)
    have hr : depthElems rest ≤ fuel :=
      le_trans (le_max_right _ _) (by simpa [depthElems] using h)
    have h2 := decode_encodeNode v fuel hv (encodeElems rest ++ r)
    have h3 := decode_encodeElems rest fuel hr r
    show decodeElemsF fuel (rest.length + 1) ((encodeNode v ++ encodeElems rest) ++ r)
      = some (v :: rest, r)
    rw [List.append_assoc]
    simp only [decodeElemsF]
    rw [h2]
    dsimp only
    rw [h3]
    rfl

end

mutual

theorem depthNode_le_encLen : ∀ v : AmNode, depthNode v ≤ (encodeNode v).length
  | .scalar s => by simp [depthNode, encodeNode]
  | .map es => by
    have h := depthEntries_le_encLen es
    simp only [depthNode, encodeNode, List.length_cons]
    omega
  | .list xs => by
    have h := depthElems_le_encLen xs
    simp only [depthNode, encodeNode, List.length_cons]
    omega

theorem depthEntries_le_encLen : ∀ es : List (List Char × AmNode),
    depthEntries es ≤ (encodeEntries es).length
  | [] => by simp [depthEntries, encodeEntries]
  | (k, v) :: rest => by
    have h1 := depthNode_le_encLen v
    have h2 := depthEntries_le_encLen rest
    simp only [depthEntries, encodeEntries, List.length_append]
    exact max_le (by omega) (by omega)

theorem depthElems_le_encLen : ∀ xs : List AmNode,
    depthElems xs ≤ (encodeElems xs).length
  | [] => by simp [depthElems, encodeElems]
  | v :: rest => by
    have h1 := depthNode_le_encLen v
    have h2 := depthElems_le_encLen rest
    simp only [depthElems, encodeElems, List.length_append]
    exact max_le (by omega) (by omega)

end

theorem decode_encodeChange (ch : Change) (r : List Nat) :
    decodeChangeRec (encodeChange ch ++ r) = some (ch, r) := by
  obtain ⟨h, deps, raw⟩ := ch
  have hshape : (deps ++ raw.length :: raw) ++ r = deps ++ (raw.length :: (raw ++ r)) := by
    simp
  have hd1 : (deps ++ (raw.length :: (raw ++ r))).take deps.length = deps :=
    List.take_left deps _
  have hd2 : (deps ++ (raw.length :: (raw ++ r))).drop deps.length = raw.length :: (raw ++ r) :=
    List.drop_left deps _
  have hr1 : (raw ++ r).take raw.length = raw := List.take_left raw r
  have hr2 : (raw ++ r).drop raw.length = r := List.drop_left raw r
  simp only [encodeChange, List.cons_append, decodeChangeRec, hshape]
  rw [if_pos (by simp), hd2]
  dsimp only
  rw [if_pos (by simp), hd1, hr1, hr2]

theorem decode_encodeChangeList : ∀ (l : List Change) (r : List Nat),
    decodeChangeList l.length (encodeChangeList l ++ r) = some (l, r)
  | [], r => by simp [encodeChangeList, decodeChangeList]
  | ch :: rest, r => by
    have h3 := decode_encodeChangeList rest r
    show decodeChangeList (rest.length + 1) ((encodeChange ch ++ encodeChangeList rest) ++ r)
      = some (ch :: rest, r)
    rw [List.append_assoc]
    simp only [decodeChangeList]
    rw [decode_encodeChange]
    dsimp only
    rw [h3]
    rfl

theorem decodeDoc_encodeDoc (d : AmDoc) : decodeDoc (encodeDoc d) = some d := by
  obtain ⟨root, applied⟩ := d
  have hdepth : depthNode root ≤ (encodeDoc ⟨root, applied⟩).length + 1 := by
    have h1 := depthNode_le_encLen root
    simp only [encodeDoc, List.length_append]
    omega
  have hnode := decode_encodeNode root ((encodeDoc ⟨root, applied⟩).length + 1) hdepth
    (applied.length :: encodeChangeList applied)
  have hch : decodeChangeList applied.length (encodeChangeList applied)
      = some (applied, []) := by
    have := decode_encodeChangeList applied []
    rwa [List.append_nil] at this
  unfold decodeDoc
  rw [show encodeDoc ⟨root, applied⟩
      = encodeNode root ++ (applied.length :: encodeChangeList applied) from rfl] at hnode ⊢
  rw [hnode]
  dsimp only
  rw [hch]

/-- C3.  Snapshot round-trip: for every client `c`, `load (save c)`
succeeds and saving the loaded client reproduces `save c` byte for byte;
and every client `load` constructs — from whatever bytes — has an empty
change-buffer. -/
theorem snapshot_round_trip :
    (∀ c : RedisAutomergeClient,
      ∃ c', load (save c) = .ok c' ∧ save c' = save c) ∧
    (∀ (bytes : List Nat) (c' : RedisAutomergeClient),
      load bytes = .ok c' → c'.aof = []) := by
  constructor
  · intro c
    refine ⟨⟨c.doc, []⟩, ?_, rfl⟩
    unfold load save
    rw [decodeDoc_encodeDoc]
  · intro bytes c' h
    unfold load at h
    cases hd : decodeDoc bytes with
    | none => rw [hd] at h; simp at h
    | some d =>
      rw [hd] at h
      simp only [Except.ok.injEq] at h
      rw [← h]

/-- Witness for C3 at the fresh client (whose snapshot is `[1, 0, 0]` in
the modelled encoding). -/
theorem snapshot_round_trip_witness :
    (∃ c', load (save RedisAutomergeClient.new) = .ok c'
      ∧ save c' = save RedisAutomergeClient.new) ∧
    (RedisAutomergeClient.mk ⟨.map [], []⟩ []).aof = [] :=
  ⟨snapshot_round_trip.1 RedisAutomergeClient.new,
   snapshot_round_trip.2 (save RedisAutomergeClient.new)
     (RedisAutomergeClient.mk ⟨.map [], []⟩ [])
     (by unfold load save; rw [decodeDoc_encodeDoc]; rfl)⟩

end RedisAutomerge
